import Mathlib

/-!
# Verification of the wireworks event bus

A shallow embedding, in Lean 4, of the core of the `wireworks` in-process
publish/subscribe bus:

* `wireworks/util/globbable_dict.py` — a glob-pattern-keyed dict with a
  cleared-on-write cache (`GlobbableDict`);
* `wireworks/util/callable_references.py` — strong/weak callable references;
* `wireworks/util/synchronous_executor.py` — the run-inline executor;
* `wireworks/event.py` — the `Event` fan-out object (`go`,
  `try_cancel_pending_calls`, `first_result`, `await_all`);
* `wireworks/dispatcher.py` — `Dispatcher.call` and its own (minimal) `Event`;
* `wireworks/registry.py` — `Registry.register` / `Registry._unregister_proxy`;
* `wireworks/static_utilities.py` — the thread-local current-event cell.

Strings are modelled as `List Char`.  The regular expressions produced by
`GlobbableDict._make_glob_re` are modelled as lists of `GlobItem`s (escaped
literal runs, the `[^sep]*` class star, and the `.*` glue), with an executable
backtracking matcher giving the anchored-match semantics.  The model targets
newline-free strings: Python's newline special cases for `$` and `.` are
outside the modelled domain (no pattern or key in this development contains a
newline).
-/

namespace Wireworks

/-- Python `sep.join` at the level of per-segment lists: concatenates the
segments, placing the delimiter `d` between consecutive segments. -/
def joinWith {α : Type} (d : α) : List (List α) → List α
  | [] => []
  | [x] => x
  | x :: y :: xs => x ++ d :: joinWith d (y :: xs)

/-- Python `str.split(c)` for a single-character separator `c`:
splits into the (possibly empty) runs between occurrences of `c`.
The result is always non-empty. -/
def splitOnChar (c : Char) : List Char → List (List Char)
  | [] => [[]]
  | a :: rest =>
    if a = c then [] :: splitOnChar c rest
    else
      let t := splitOnChar c rest
      (a :: t.headI) :: t.tail

/-- Python `str.split(chr + chr)` specialised to the two-character delimiter
`**` used by `_make_glob_re`: a left-to-right scan splitting at each
non-overlapping occurrence of `**`. -/
def splitOnStarStar : List Char → List (List Char)
  | [] => [[]]
  | [a] => [[a]]
  | a :: b :: rest =>
    if a = '*' ∧ b = '*' then [] :: splitOnStarStar rest
    else
      let t := splitOnStarStar (b :: rest)
      (a :: t.headI) :: t.tail

/-- One atom of the compiled glob regular expression:
`lit s` is a run of `re.escape`d literal characters, `starNotSep` is the
`[^` separator `]*` class that `_make_glob_re` substitutes for `*`, and
`dotStar` is the `.*` glue joining the `**`-delimited segments. -/
inductive GlobItem where
  | lit (s : List Char)
  | starNotSep
  | dotStar
deriving DecidableEq

/-- The body of the `for part in glob_pattern.split('**')` loop in
`_make_glob_re`: split the segment on `*`, escape each fragment, and join
the fragments with the `[^sep]*` class. -/
def segmentItems (part : List Char) : List GlobItem :=
  joinWith GlobItem.starNotSep
    ((splitOnChar '*' part).map (fun p => [GlobItem.lit p]))

/-- `GlobbableDict._make_glob_re`: split the glob pattern on `**`, compile
each segment with `segmentItems`, and join the segments with `.*`.
The `^`/`$` anchors of the Python code are realised by `itemsMatch` being a
whole-string matcher.  (The separator only appears in the semantics of
`starNotSep`, via the `sep` argument of `itemsMatch`; the construction
itself does not depend on it, exactly as in the source.) -/
def makeGlobRe (pattern : List Char) : List GlobItem :=
  joinWith GlobItem.dotStar ((splitOnStarStar pattern).map segmentItems)

/-- Anchored matching of a compiled item list against a whole string,
by standard regex backtracking: a `lit` run must appear verbatim,
`starNotSep` consumes some run of non-separator characters (the possible
split points are enumerated explicitly), and `dotStar` consumes some
arbitrary run of characters. -/
def itemsMatch (sep : Char) : List GlobItem → List Char → Bool
  | [], w => w.isEmpty
  | GlobItem.lit s :: rest, w =>
    s.isPrefixOf w && itemsMatch sep rest (w.drop s.length)
  | GlobItem.starNotSep :: rest, w =>
    (List.range (w.length + 1)).any fun n =>
      (w.take n).all (fun a => a != sep) && itemsMatch sep rest (w.drop n)
  | GlobItem.dotStar :: rest, w =>
    (List.range (w.length + 1)).any fun n => itemsMatch sep rest (w.drop n)

/-- `GlobbableDict._get_matching_items`: scan every registered key in order;
collect the value when the compiled query matches the key, or — failing
that, when the key itself contains a wildcard — when the key compiled as a
glob matches the query string (the reverse branch). -/
def getMatchingItems {V : Type} (sep : Char) (entries : List (List Char × V))
    (q : List Char) : List V :=
  entries.filterMap (fun kv =>
    if itemsMatch sep (makeGlobRe q) kv.1 then some kv.2
    else if '*' ∈ kv.1 then
      if itemsMatch sep (makeGlobRe kv.1) q then some kv.2 else none
    else none)

example : splitOnStarStar (r"a**b").toList = [[ 'a'], ['b']] := by decide
example : splitOnStarStar (r"***").toList = [[], ['*']] := by decide
example : splitOnChar '*' (r"foo.*").toList = [(r"foo.").toList, []] := by decide

-- `_make_glob_re("foo.*")` is `^foo\.[^.]*$`.
example : makeGlobRe (r"foo.*").toList =
    [GlobItem.lit (r"foo.").toList, GlobItem.starNotSep, GlobItem.lit []] := by
  decide

-- `_make_glob_re("a.**.b")` is `^a\..*\.b$`.
example : makeGlobRe (r"a.**.b").toList =
    [GlobItem.lit (r"a.").toList, GlobItem.dotStar, GlobItem.lit (r".b").toList] := by
  decide

-- Matching behaviour replicating `test_single_asterisk_glob_all` and
-- `test_double_asterisk_glob_all` from `globbable_dict_test.py`
-- (dict: a.b=1, a.c=2, b=3, a.b.c=4, d.e=5, a.b.c.d.e.f.g=6, a.b.g=7).
def sampleEntries : List (List Char × Nat) :=
  [((r"a.b").toList, 1), ((r"a.c").toList, 2), ((r"b").toList, 3),
   ((r"a.b.c").toList, 4), ((r"d.e").toList, 5),
   ((r"a.b.c.d.e.f.g").toList, 6), ((r"a.b.g").toList, 7)]

example : getMatchingItems '.' sampleEntries (r"a.*").toList = [1, 2] := by decide
example : getMatchingItems '.' sampleEntries (r"*").toList = [3] := by decide
example : getMatchingItems '.' sampleEntries (r"a.**").toList = [1, 2, 4, 6, 7] := by
  decide
example : getMatchingItems '.' sampleEntries (r"**").toList = [1, 2, 3, 4, 5, 6, 7] := by
  decide
example : getMatchingItems '.' sampleEntries (r"**.g").toList = [6, 7] := by decide
example : getMatchingItems '.' sampleEntries (r"**.c.**").toList = [6] := by decide
example : getMatchingItems '.' sampleEntries (r"a.**.g").toList = [6, 7] := by decide
example : getMatchingItems '.' sampleEntries [] = [] := by decide

-- Reverse-branch behaviour replicating `test_single_asterisk_glob_in_key`
-- (dict: a.*=1, a.c=2, b=3, a.b.c=4, d.e=5, *=6, with wildcard keys allowed).
def wildcardKeyEntries : List (List Char × Nat) :=
  [((r"a.*").toList, 1), ((r"a.c").toList, 2), ((r"b").toList, 3),
   ((r"a.b.c").toList, 4), ((r"d.e").toList, 5), ((r"*").toList, 6)]

example : getMatchingItems '.' wildcardKeyEntries (r"a.b").toList = [1] := by decide
example : getMatchingItems '.' wildcardKeyEntries (r"*").toList = [3, 6] := by decide
example : getMatchingItems '.' wildcardKeyEntries (r"*.*").toList = [1, 2, 5] := by
  decide
example : getMatchingItems '.' wildcardKeyEntries [] = [6] := by decide
example : getMatchingItems '.' wildcardKeyEntries (r"a.c").toList = [1, 2] := by decide
example : getMatchingItems '.' wildcardKeyEntries (r"*.b").toList = [] := by decide

/-! ## The spec's description of the compiled matcher (claim C3)

The spec describes `_make_glob_re` as substituting `*` with "one or more
characters excluding the separator".  `SpecItem`/`specItemsMatch`/`specGlobRe`
follow the spec's words (with the quantifier as a parameter, so the
one-or-more claim and its zero-or-more amendment share one definition). -/

/-- One atom of the spec-described compiled expression: an escaped literal
run, the class substituted for `*` (requiring at least one character when
`atLeastOne` is true), and the "any characters including separators" glue
substituted for `**`. -/
inductive SpecItem where
  | lit (s : List Char)
  | notSepChars (atLeastOne : Bool)
  | anyChars
deriving DecidableEq

/-- Anchored matching for the spec-described items.  `notSepChars true`
consumes one or more non-separator characters; `notSepChars false` consumes
zero or more. -/
def specItemsMatch (sep : Char) : List SpecItem → List Char → Bool
  | [], w => w.isEmpty
  | SpecItem.lit s :: rest, w =>
    s.isPrefixOf w && specItemsMatch sep rest (w.drop s.length)
  | SpecItem.notSepChars one :: rest, w =>
    (List.range (w.length + 1)).any fun n =>
      (!one || decide (1 ≤ n)) && (w.take n).all (fun a => a != sep) &&
        specItemsMatch sep rest (w.drop n)
  | SpecItem.anyChars :: rest, w =>
    (List.range (w.length + 1)).any fun n => specItemsMatch sep rest (w.drop n)

/-- Modelled from the spec's matching-algorithm sentence: split the query on
`**`, split each segment on `*`, escape the literal text, substitute each `*`
with the non-separator class, join the `**`-delimited segments with the
any-characters glue, and anchor the whole expression. -/
def specGlobRe (one : Bool) (pattern : List Char) : List SpecItem :=
  joinWith SpecItem.anyChars ((splitOnStarStar pattern).map (fun part =>
    joinWith (SpecItem.notSepChars one)
      ((splitOnChar '*' part).map (fun p => [SpecItem.lit p]))))

/-- The embedding of a code-compiled item into the spec-described item type,
reading `starNotSep` as the zero-or-more class. -/
def toSpecItem : GlobItem → SpecItem
  | GlobItem.lit s => SpecItem.lit s
  | GlobItem.starNotSep => SpecItem.notSepChars false
  | GlobItem.dotStar => SpecItem.anyChars

theorem joinWith_map {α β : Type} (f : α → β) (d : α) :
    ∀ xs : List (List α), (joinWith d xs).map f = joinWith (f d) (xs.map (List.map f))
  | [] => rfl
  | [x] => rfl
  | x :: y :: xs => by
    simp only [joinWith, List.map_append, List.map_cons, joinWith_map f d (y :: xs)]

theorem specGlobRe_false_eq (pattern : List Char) :
    specGlobRe false pattern = (makeGlobRe pattern).map toSpecItem := by
  rw [makeGlobRe, joinWith_map, List.map_map]
  show _ = joinWith SpecItem.anyChars ((splitOnStarStar pattern).map _)
  rw [specGlobRe]
  refine congrArg _ (List.map_congr_left fun part _ => ?_)
  show _ = (segmentItems part).map toSpecItem
  rw [segmentItems, joinWith_map, List.map_map]
  rfl

theorem specItemsMatch_map_toSpecItem (sep : Char) :
    ∀ (items : List GlobItem) (w : List Char),
      specItemsMatch sep (items.map toSpecItem) w = itemsMatch sep items w
  | [], w => rfl
  | GlobItem.lit s :: rest, w => by
    simp only [List.map_cons, toSpecItem, specItemsMatch, itemsMatch,
      specItemsMatch_map_toSpecItem sep rest]
  | GlobItem.starNotSep :: rest, w => by
    simp only [List.map_cons, toSpecItem, specItemsMatch, itemsMatch,
      specItemsMatch_map_toSpecItem sep rest, Bool.not_false, Bool.true_or,
      Bool.true_and]
  | GlobItem.dotStar :: rest, w => by
    simp only [List.map_cons, toSpecItem, specItemsMatch, itemsMatch,
      specItemsMatch_map_toSpecItem sep rest]

/-- C3, counterexample.  The claim says `_make_glob_re` substitutes `*` with
one or more characters excluding the separator, so that a `*` token never
matches an empty fragment of a component.  In the code `*` becomes
`[^sep]*` — zero or more — so the compiled query `*` matches the empty key
(and `lookup` on a registry holding the empty key returns its value), while
the spec-described one-or-more compilation rejects it. -/
theorem star_matches_empty_fragment :
    itemsMatch '.' (makeGlobRe [ '*']) [] = true ∧
      getMatchingItems '.' [([], 1)] [ '*'] = [1] ∧
      specItemsMatch '.' (specGlobRe true [ '*']) [] = false := by
  decide

/-- C3, amended.  The compiled matcher is built by splitting the pattern on
`**`, splitting each segment on `*`, escaping the literal text, substituting
each `*` with ZERO or more characters excluding the separator, joining the
`**`-delimited segments with any characters including separators, and
anchoring the whole expression; consequently a `*` token may match an empty
fragment of a component.  Formally: the code's compiled matcher agrees with
the spec recipe taken with the zero-or-more class, on every pattern, every
subject string and every separator. -/
theorem make_glob_re_follows_spec_recipe_zero_or_more (sep : Char)
    (pattern w : List Char) :
    specItemsMatch sep (specGlobRe false pattern) w =
      itemsMatch sep (makeGlobRe pattern) w := by
  rw [specGlobRe_false_eq, specItemsMatch_map_toSpecItem]

/-! ## Structure of the splitters -/

/-- The inverse of `splitOnChar`: join components with the separator,
Python's `sep.join`. -/
def joinComps (c : Char) : List (List Char) → List Char
  | [] => []
  | [x] => x
  | x :: y :: xs => x ++ c :: joinComps c (y :: xs)

theorem splitOnChar_ne_nil (c : Char) (w : List Char) : splitOnChar c w ≠ [] := by
  cases w with
  | nil => simp [splitOnChar]
  | cons a rest =>
    rw [splitOnChar]
    split <;> simp

theorem splitOnChar_cons_self (c : Char) (w : List Char) :
    splitOnChar c (c :: w) = [] :: splitOnChar c w := by
  rw [splitOnChar, if_pos rfl]

theorem splitOnChar_cons_ne {a c : Char} (h : a ≠ c) {w : List Char} {x : List Char}
    {xs : List (List Char)} (hw : splitOnChar c w = x :: xs) :
    splitOnChar c (a :: w) = (a :: x) :: xs := by
  rw [splitOnChar, if_neg h, hw]
  rfl

theorem splitOnChar_no_sep {c : Char} {s : List Char} (h : c ∉ s) :
    splitOnChar c s = [s] := by
  induction s with
  | nil => rfl
  | cons a rest ih =>
    have ha : a ≠ c := fun hac => h (hac ▸ List.mem_cons_self a rest)
    rw [splitOnChar_cons_ne ha (ih (fun hc => h (List.mem_cons_of_mem a hc)))]

theorem splitOnChar_append (c : Char) (u v : List Char) :
    splitOnChar c (u ++ c :: v) = splitOnChar c u ++ splitOnChar c v := by
  induction u with
  | nil => rw [List.nil_append, splitOnChar_cons_self]; rfl
  | cons a u ih =>
    by_cases ha : a = c
    · subst ha
      rw [List.cons_append, splitOnChar_cons_self, splitOnChar_cons_self, ih,
        List.cons_append]
    · obtain ⟨x, xs, hx⟩ := List.exists_cons_of_ne_nil (splitOnChar_ne_nil c u)
      rw [List.cons_append, splitOnChar_cons_ne ha (hx ▸ ih), splitOnChar_cons_ne ha hx,
        List.cons_append]
      rfl

theorem joinComps_cons (c : Char) (a : Char) (x : List Char) (xs : List (List Char)) :
    joinComps c ((a :: x) :: xs) = a :: joinComps c (x :: xs) := by
  cases xs <;> simp [joinComps]

theorem joinComps_splitOnChar (c : Char) (w : List Char) :
    joinComps c (splitOnChar c w) = w := by
  induction w with
  | nil => rfl
  | cons a rest ih =>
    obtain ⟨x, xs, hx⟩ := List.exists_cons_of_ne_nil (splitOnChar_ne_nil c rest)
    have ih' : joinComps c (x :: xs) = rest := by rw [← hx]; exact ih
    by_cases ha : a = c
    · subst ha
      rw [splitOnChar_cons_self, hx]
      simp [joinComps, ih']
    · rw [splitOnChar_cons_ne ha hx, joinComps_cons, ih']

theorem not_mem_of_mem_splitOnChar (c : Char) (w : List Char) :
    ∀ comp ∈ splitOnChar c w, c ∉ comp := by
  induction w with
  | nil =>
    intro comp hc
    simp only [splitOnChar, List.mem_singleton] at hc
    simp [hc]
  | cons a rest ih =>
    obtain ⟨x, xs, hx⟩ := List.exists_cons_of_ne_nil (splitOnChar_ne_nil c rest)
    by_cases ha : a = c
    · subst ha
      rw [splitOnChar_cons_self]
      intro comp hc
      rcases List.mem_cons.1 hc with h | h
      · simp [h]
      · exact ih comp h
    · rw [splitOnChar_cons_ne ha hx]
      intro comp hc
      rcases List.mem_cons.1 hc with h | h
      · subst h
        intro hmem
        rcases List.mem_cons.1 hmem with h | h
        · exact ha h.symm
        · exact ih x (hx ▸ List.mem_cons_self x xs) h
      · exact ih comp (hx ▸ List.mem_cons_of_mem x h)

theorem joinComps_append (c : Char) :
    ∀ (A : List (List Char)) {B : List (List Char)}, A ≠ [] → B ≠ [] →
      joinComps c (A ++ B) = joinComps c A ++ c :: joinComps c B
  | [], _, hA, _ => absurd rfl hA
  | [x], B, _, hB => by
    obtain ⟨y, ys, rfl⟩ := List.exists_cons_of_ne_nil hB
    simp [joinComps]
  | x :: x' :: A', B, _, hB => by
    have ih := joinComps_append c (x' :: A') (List.cons_ne_nil x' A') hB
    simp only [List.cons_append, joinComps, List.append_eq] at ih ⊢
    rw [ih]
    simp [List.append_assoc]

theorem splitOnChar_joinComps (c : Char) :
    ∀ {B : List (List Char)}, B ≠ [] → (∀ b ∈ B, c ∉ b) →
      splitOnChar c (joinComps c B) = B
  | [], hB, _ => absurd rfl hB
  | [x], _, h => splitOnChar_no_sep (h x (List.mem_cons_self x []))
  | x :: x' :: A', _, h => by
    have ih := splitOnChar_joinComps c (List.cons_ne_nil x' A')
      (fun b hb => h b (List.mem_cons_of_mem x hb))
    simp only [joinComps]
    rw [splitOnChar_append, splitOnChar_no_sep (h x (List.mem_cons_self x _)), ih]
    rfl

theorem splitOnChar_tail_nil_iff (c : Char) (w : List Char) :
    (splitOnChar c w).tail = [] ↔ c ∉ w := by
  obtain ⟨x, xs, hx⟩ := List.exists_cons_of_ne_nil (splitOnChar_ne_nil c w)
  rw [hx]
  simp only [List.tail_cons]
  constructor
  · rintro rfl
    have hj := joinComps_splitOnChar c w
    rw [hx] at hj
    simp only [joinComps] at hj
    rw [← hj]
    exact not_mem_of_mem_splitOnChar c w x (hx ▸ List.mem_cons_self x [])
  · intro h
    have h2 := (splitOnChar_no_sep h).symm.trans hx
    exact (List.cons_eq_cons.mp h2).2.symm

/-! ## Structure of the compiled item lists -/

/-- Prepend one literal character to a compiled item list, merging it into a
leading literal run when there is one. -/
def consChar (c : Char) : List GlobItem → List GlobItem
  | GlobItem.lit s :: rest => GlobItem.lit (c :: s) :: rest
  | items => GlobItem.lit [c] :: items

/-- Prepend a literal run to a compiled item list. -/
def consChars (cs : List Char) (items : List GlobItem) : List GlobItem :=
  cs.foldr consChar items

theorem splitOnStarStar_ne_nil : ∀ w : List Char, splitOnStarStar w ≠ []
  | [] => by simp [splitOnStarStar]
  | [_] => by simp [splitOnStarStar]
  | _ :: _ :: _ => by
    rw [splitOnStarStar]
    split <;> simp

theorem segmentItems_nil : segmentItems [] = [GlobItem.lit []] := rfl

theorem segmentItems_shape (part : List Char) :
    ∃ s r, segmentItems part = GlobItem.lit s :: r := by
  rw [segmentItems]
  obtain ⟨p, ps, hp⟩ := List.exists_cons_of_ne_nil (splitOnChar_ne_nil '*' part)
  rw [hp]
  cases ps <;> exact ⟨p, _, rfl⟩

theorem segmentItems_star_cons (part : List Char) :
    segmentItems ('*' :: part) = GlobItem.lit [] :: GlobItem.starNotSep :: segmentItems part := by
  rw [segmentItems, segmentItems, splitOnChar_cons_self]
  obtain ⟨p, ps, hp⟩ := List.exists_cons_of_ne_nil (splitOnChar_ne_nil '*' part)
  rw [hp]
  rfl

theorem segmentItems_cons_ne {a : Char} (part : List Char) (h : a ≠ '*') :
    segmentItems (a :: part) = consChar a (segmentItems part) := by
  obtain ⟨p, ps, hp⟩ := List.exists_cons_of_ne_nil (splitOnChar_ne_nil '*' part)
  rw [segmentItems, segmentItems, splitOnChar_cons_ne h hp, hp]
  cases ps <;> rfl

theorem consChar_append {c : Char} {X : List GlobItem}
    (hX : ∃ s r, X = GlobItem.lit s :: r) (Z : List GlobItem) :
    consChar c (X ++ Z) = consChar c X ++ Z := by
  obtain ⟨s, r, rfl⟩ := hX
  rfl

theorem makeGlobRe_nil : makeGlobRe [] = [GlobItem.lit []] := rfl

theorem makeGlobRe_starstar_cons (w : List Char) :
    makeGlobRe ('*' :: '*' :: w) = GlobItem.lit [] :: GlobItem.dotStar :: makeGlobRe w := by
  rw [makeGlobRe, makeGlobRe, splitOnStarStar, if_pos ⟨rfl, rfl⟩]
  obtain ⟨h, t, hh⟩ := List.exists_cons_of_ne_nil (splitOnStarStar_ne_nil w)
  rw [hh]
  rfl

theorem makeGlobRe_cons_ne {a : Char} (w : List Char) (h : a ≠ '*') :
    makeGlobRe (a :: w) = consChar a (makeGlobRe w) := by
  cases w with
  | nil =>
    show joinWith GlobItem.dotStar [segmentItems [a]] = _
    rw [joinWith, segmentItems_cons_ne [] h]
    rfl
  | cons b rest =>
    rw [makeGlobRe, makeGlobRe, splitOnStarStar, if_neg (fun hc => h hc.1)]
    obtain ⟨x, xs, hx⟩ := List.exists_cons_of_ne_nil (splitOnStarStar_ne_nil (b :: rest))
    rw [hx]
    show joinWith _ (segmentItems (a :: x) :: xs.map segmentItems) =
      consChar a (joinWith _ (segmentItems x :: xs.map segmentItems))
    rw [segmentItems_cons_ne x h]
    cases xs with
    | nil => rfl
    | cons y ys => exact (consChar_append (segmentItems_shape x) _).symm

theorem makeGlobRe_star_cons (w : List Char) (hw : w.head? ≠ some '*') :
    makeGlobRe ('*' :: w) =
      GlobItem.lit [] :: GlobItem.starNotSep :: makeGlobRe w := by
  cases w with
  | nil =>
    show joinWith GlobItem.dotStar [segmentItems ['*']] = _
    rw [joinWith, segmentItems_star_cons]
    rfl
  | cons b rest =>
    have hb : ¬('*' = '*' ∧ b = '*') := fun hc => hw (by rw [hc.2]; rfl)
    rw [makeGlobRe, makeGlobRe, splitOnStarStar, if_neg hb]
    obtain ⟨x, xs, hx⟩ := List.exists_cons_of_ne_nil (splitOnStarStar_ne_nil (b :: rest))
    rw [hx]
    show joinWith _ (segmentItems ('*' :: x) :: xs.map segmentItems) =
      GlobItem.lit [] :: GlobItem.starNotSep ::
        joinWith _ (segmentItems x :: xs.map segmentItems)
    rw [segmentItems_star_cons]
    cases xs with
    | nil => rfl
    | cons y ys => rfl

theorem makeGlobRe_append {cs : List Char} (w : List Char) (h : '*' ∉ cs) :
    makeGlobRe (cs ++ w) = consChars cs (makeGlobRe w) := by
  induction cs with
  | nil => rfl
  | cons a cs ih =>
    have ha : a ≠ '*' := fun hc => h (hc ▸ List.mem_cons_self a cs)
    rw [List.cons_append, makeGlobRe_cons_ne _ ha,
      ih (fun hc => h (List.mem_cons_of_mem a hc))]
    rfl

theorem consChars_lit (cs t : List Char) (r : List GlobItem) :
    consChars cs (GlobItem.lit t :: r) = GlobItem.lit (cs ++ t) :: r := by
  induction cs with
  | nil => rfl
  | cons a cs ih => rw [consChars, List.foldr_cons, ← consChars, ih]; rfl

theorem first_sep_unique {c : Char} :
    ∀ {u u' v v' : List Char}, u ++ c :: v = u' ++ c :: v' → c ∉ u → c ∉ u' →
      u = u' ∧ v = v' := by
  intro u
  induction u with
  | nil =>
    intro u' v v' heq _ hu'
    cases u' with
    | nil => simpa using heq
    | cons a u'' =>
      rw [List.nil_append, List.cons_append, List.cons_eq_cons] at heq
      exact absurd (heq.1 ▸ List.mem_cons_self a u'') hu'
  | cons a u ih =>
    intro u' v v' heq hu hu'
    cases u' with
    | nil =>
      rw [List.nil_append, List.cons_append, List.cons_eq_cons] at heq
      exact absurd (heq.1.symm ▸ List.mem_cons_self a u) hu
    | cons a' u'' =>
      rw [List.cons_append, List.cons_append, List.cons_eq_cons] at heq
      obtain ⟨h1, h2⟩ := ih heq.2 (fun hm => hu (List.mem_cons_of_mem a hm))
        (fun hm => hu' (List.mem_cons_of_mem a' hm))
      exact ⟨by rw [heq.1, h1], h2⟩

theorem exists_first_sep {c : Char} {key : List Char} (hc : c ∈ key) :
    ∃ u v, key = u ++ c :: v ∧ c ∉ u := by
  induction key with
  | nil => cases hc
  | cons a rest ih =>
    by_cases ha : a = c
    · exact ⟨[], rest, by rw [ha]; rfl, List.not_mem_nil c⟩
    · obtain ⟨u, v, hkey, hu⟩ := ih (by
        rcases List.mem_cons.1 hc with h | h
        · exact absurd h.symm ha
        · exact h)
      refine ⟨a :: u, v, by rw [hkey]; rfl, ?_⟩
      intro hm
      rcases List.mem_cons.1 hm with h | h
      · exact ha h.symm
      · exact hu h

/-! ## Semantics of the compiled items -/

theorem itemsMatch_lit_nil (sep : Char) (rest : List GlobItem) (w : List Char) :
    itemsMatch sep (GlobItem.lit [] :: rest) w = itemsMatch sep rest w := by
  simp [itemsMatch, List.isPrefixOf]

theorem itemsMatch_lit_nil_singleton (sep : Char) (v : List Char) :
    itemsMatch sep [GlobItem.lit []] v = v.isEmpty := by
  rw [itemsMatch_lit_nil]
  rfl

theorem itemsMatch_starNotSep_iff (sep : Char) (rest : List GlobItem) (w : List Char) :
    itemsMatch sep (GlobItem.starNotSep :: rest) w = true ↔
      ∃ u v, w = u ++ v ∧ (∀ a ∈ u, a ≠ sep) ∧ itemsMatch sep rest v = true := by
  show ((List.range (w.length + 1)).any _) = true ↔ _
  rw [List.any_eq_true]
  constructor
  · rintro ⟨n, _, hn⟩
    rw [Bool.and_eq_true, List.all_eq_true] at hn
    refine ⟨w.take n, w.drop n, (List.take_append_drop n w).symm, ?_, hn.2⟩
    intro a ha
    simpa using hn.1 a ha
  · rintro ⟨u, v, rfl, hu, hv⟩
    refine ⟨u.length, List.mem_range.2 (by rw [List.length_append]; omega), ?_⟩
    rw [Bool.and_eq_true, List.all_eq_true]
    refine ⟨fun a ha => ?_, ?_⟩
    · rw [List.take_left] at ha
      simpa using hu a ha
    · rw [List.drop_left]
      exact hv

theorem itemsMatch_dotStar_iff (sep : Char) (rest : List GlobItem) (w : List Char) :
    itemsMatch sep (GlobItem.dotStar :: rest) w = true ↔
      ∃ u v, w = u ++ v ∧ itemsMatch sep rest v = true := by
  show ((List.range (w.length + 1)).any _) = true ↔ _
  rw [List.any_eq_true]
  constructor
  · rintro ⟨n, _, hn⟩
    exact ⟨w.take n, w.drop n, (List.take_append_drop n w).symm, hn⟩
  · rintro ⟨u, v, rfl, hv⟩
    refine ⟨u.length, List.mem_range.2 (by rw [List.length_append]; omega), ?_⟩
    rw [List.drop_left]
    exact hv

theorem itemsMatch_consChar_nil (sep c : Char) (items : List GlobItem) :
    itemsMatch sep (consChar c items) [] = false := by
  cases items with
  | nil => rfl
  | cons i rest => cases i <;> rfl

theorem itemsMatch_consChar_cons (sep c : Char) (items : List GlobItem) (a : Char)
    (v : List Char) :
    itemsMatch sep (consChar c items) (a :: v) = ((c == a) && itemsMatch sep items v) := by
  cases items with
  | nil => simp [consChar, itemsMatch, List.isPrefixOf, Bool.and_assoc]
  | cons i rest =>
    cases i with
    | lit s =>
      show itemsMatch sep (GlobItem.lit (c :: s) :: rest) (a :: v) = _
      simp only [itemsMatch, List.isPrefixOf, List.length_cons, List.drop_succ_cons,
        Bool.and_assoc]
    | starNotSep => simp [consChar, itemsMatch, List.isPrefixOf, Bool.and_assoc]
    | dotStar => simp [consChar, itemsMatch, List.isPrefixOf, Bool.and_assoc]

theorem itemsMatch_consChars (sep : Char) (cs : List Char) (items : List GlobItem) :
    ∀ w, itemsMatch sep (consChars cs items) w
      = (cs.isPrefixOf w && itemsMatch sep items (w.drop cs.length)) := by
  induction cs with
  | nil =>
    intro w
    simp [consChars, List.isPrefixOf]
  | cons c cs ih =>
    intro w
    cases w with
    | nil =>
      rw [show consChars (c :: cs) items = consChar c (consChars cs items) from rfl,
        itemsMatch_consChar_nil]
      simp [List.isPrefixOf]
    | cons a v =>
      rw [show consChars (c :: cs) items = consChar c (consChars cs items) from rfl,
        itemsMatch_consChar_cons, ih v]
      simp only [List.isPrefixOf, List.length_cons, List.drop_succ_cons, Bool.and_assoc]

theorem isPrefixOf_and_iff (cs key : List Char) (Q : List Char → Bool) :
    (cs.isPrefixOf key && Q (key.drop cs.length)) = true ↔
      ∃ v, key = cs ++ v ∧ Q v = true := by
  rw [Bool.and_eq_true]
  constructor
  · rintro ⟨hpre, hq⟩
    obtain ⟨t, ht⟩ := List.isPrefixOf_iff_prefix.1 hpre
    refine ⟨t, ht.symm, ?_⟩
    rw [← ht, List.drop_left] at hq
    exact hq
  · rintro ⟨v, rfl, hq⟩
    refine ⟨List.isPrefixOf_iff_prefix.2 ⟨v, rfl⟩, ?_⟩
    rw [List.drop_left]
    exact hq

theorem itemsMatch_starNotSep_consChar_iff (sep : Char) (M : List GlobItem)
    (key : List Char) :
    itemsMatch sep (GlobItem.starNotSep :: consChar sep M) key = true ↔
      ∃ u v, key = u ++ sep :: v ∧ sep ∉ u ∧ itemsMatch sep M v = true := by
  rw [itemsMatch_starNotSep_iff]
  constructor
  · rintro ⟨u, v', rfl, hu, hv⟩
    cases v' with
    | nil => rw [itemsMatch_consChar_nil] at hv; cases hv
    | cons a v =>
      rw [itemsMatch_consChar_cons, Bool.and_eq_true, beq_iff_eq] at hv
      obtain ⟨ha, hv⟩ := hv
      subst ha
      exact ⟨u, v, rfl, fun hm => hu sep hm rfl, hv⟩
  · rintro ⟨u, v, rfl, hu, hv⟩
    refine ⟨u, sep :: v, rfl, fun a ha hac => hu (hac ▸ ha), ?_⟩
    rw [itemsMatch_consChar_cons, hv]
    simp

theorem itemsMatch_dotStar_consChar_iff (sep : Char) (M : List GlobItem)
    (key : List Char) :
    itemsMatch sep (GlobItem.dotStar :: consChar sep M) key = true ↔
      ∃ u v, key = u ++ sep :: v ∧ itemsMatch sep M v = true := by
  rw [itemsMatch_dotStar_iff]
  constructor
  · rintro ⟨u, v', rfl, hv⟩
    cases v' with
    | nil => rw [itemsMatch_consChar_nil] at hv; cases hv
    | cons a v =>
      rw [itemsMatch_consChar_cons, Bool.and_eq_true, beq_iff_eq] at hv
      obtain ⟨ha, hv⟩ := hv
      subst ha
      exact ⟨u, v, rfl, hv⟩
  · rintro ⟨u, v, rfl, hv⟩
    refine ⟨u, sep :: v, rfl, ?_⟩
    rw [itemsMatch_consChar_cons, hv]
    simp

/-! ## Query patterns as component token sequences (claim C2)

Claim C2 speaks about queries whose components are each a wildcard-free
literal, a whole `*`, or a whole `**`.  `Tok` names such a component,
`renderToks` produces the query string the dispatcher would pass. -/

inductive Tok where
  | lit (s : List Char)
  | star
  | starstar
deriving DecidableEq

def tokChars : Tok → List Char
  | Tok.lit s => s
  | Tok.star => ['*']
  | Tok.starstar => ['*', '*']

/-- Python `sep.join` of the token texts: the query string a token sequence
names. -/
def renderToks (sep : Char) : List Tok → List Char
  | [] => []
  | [t] => tokChars t
  | t :: t2 :: ts => tokChars t ++ sep :: renderToks sep (t2 :: ts)

/-- A literal token holds a single component: no wildcard character and no
separator inside it. -/
def WfTok (sep : Char) : Tok → Prop
  | Tok.lit s => '*' ∉ s ∧ sep ∉ s
  | _ => True

instance (sep : Char) (t : Tok) : Decidable (WfTok sep t) := by
  cases t <;> simp only [WfTok] <;> infer_instance

/-- Component-sequence matching with the semantics the code realises: a
literal token matches exactly its own component, `*` matches exactly one
(possibly empty) component, and `**` matches ONE or more components. -/
def tokCompMatch : List Tok → List (List Char) → Bool
  | [], comps => comps.isEmpty
  | Tok.lit _ :: _, [] => false
  | Tok.lit s :: rest, comp :: comps => s == comp && tokCompMatch rest comps
  | Tok.star :: _, [] => false
  | Tok.star :: rest, _ :: comps => tokCompMatch rest comps
  | Tok.starstar :: rest, comps =>
    (List.range comps.length).any fun n => tokCompMatch rest (comps.drop (n + 1))

/-- Modelled from the claim's words: as `tokCompMatch`, but with `**`
standing for ZERO or more components. -/
def claimCompMatch : List Tok → List (List Char) → Bool
  | [], comps => comps.isEmpty
  | Tok.lit _ :: _, [] => false
  | Tok.lit s :: rest, comp :: comps => s == comp && claimCompMatch rest comps
  | Tok.star :: _, [] => false
  | Tok.star :: rest, _ :: comps => claimCompMatch rest comps
  | Tok.starstar :: rest, comps =>
    (List.range (comps.length + 1)).any fun n => claimCompMatch rest (comps.drop n)

theorem tokCompMatch_nil_comps : ∀ toks : List Tok, toks ≠ [] →
    tokCompMatch toks [] = false
  | Tok.lit _ :: _, _ => rfl
  | Tok.star :: _, _ => rfl
  | Tok.starstar :: _, _ => rfl
  | [], h => absurd rfl h

/-! ## Splitting a key at a separator, in component terms -/

theorem exists_lit_sep_split_iff (sep : Char) {s : List Char} (hs : sep ∉ s)
    (P : List (List Char) → Bool) (hP : P [] = false) (key : List Char) :
    (∃ v, key = s ++ sep :: v ∧ P (splitOnChar sep v) = true) ↔
      ((s == (splitOnChar sep key).headI) && P ((splitOnChar sep key).tail)) = true := by
  by_cases hc : sep ∈ key
  · obtain ⟨u₀, v₀, hkey, hu₀⟩ := exists_first_sep hc
    have hsk : splitOnChar sep key = u₀ :: splitOnChar sep v₀ := by
      rw [hkey, splitOnChar_append, splitOnChar_no_sep hu₀]
      rfl
    rw [hsk]
    simp only [List.headI, List.tail_cons, Bool.and_eq_true, beq_iff_eq]
    constructor
    · rintro ⟨v, hv, hPv⟩
      obtain ⟨h1, h2⟩ := first_sep_unique (hv.symm.trans hkey) hs hu₀
      exact ⟨h1, h2 ▸ hPv⟩
    · rintro ⟨rfl, hPt⟩
      exact ⟨v₀, hkey, hPt⟩
  · rw [splitOnChar_no_sep hc]
    simp only [List.headI, List.tail_cons, hP, Bool.and_false]
    constructor
    · rintro ⟨v, hv, _⟩
      exact absurd (hv ▸ List.mem_append_right s (List.mem_cons_self sep v)) hc
    · intro h
      exact absurd h Bool.false_ne_true

theorem exists_first_sep_split_iff (sep : Char) (P : List (List Char) → Bool)
    (hP : P [] = false) (key : List Char) :
    (∃ u v, key = u ++ sep :: v ∧ sep ∉ u ∧ P (splitOnChar sep v) = true) ↔
      P ((splitOnChar sep key).tail) = true := by
  by_cases hc : sep ∈ key
  · obtain ⟨u₀, v₀, hkey, hu₀⟩ := exists_first_sep hc
    have hsk : splitOnChar sep key = u₀ :: splitOnChar sep v₀ := by
      rw [hkey, splitOnChar_append, splitOnChar_no_sep hu₀]
      rfl
    rw [hsk]
    simp only [List.tail_cons]
    constructor
    · rintro ⟨u, v, hv, hu, hPv⟩
      obtain ⟨h1, h2⟩ := first_sep_unique (hv.symm.trans hkey) hu hu₀
      exact h2 ▸ hPv
    · intro hPt
      exact ⟨u₀, v₀, hkey, hu₀, hPt⟩
  · rw [splitOnChar_no_sep hc]
    simp only [List.tail_cons, hP]
    constructor
    · rintro ⟨u, v, hv, _, _⟩
      exact absurd (hv ▸ List.mem_append_right u (List.mem_cons_self sep v)) hc
    · intro h
      exact absurd h Bool.false_ne_true

theorem exists_any_sep_split_iff (sep : Char) (P : List (List Char) → Bool)
    (hP : P [] = false) (key : List Char) :
    (∃ u v, key = u ++ sep :: v ∧ P (splitOnChar sep v) = true) ↔
      ((List.range (splitOnChar sep key).length).any fun n =>
        P ((splitOnChar sep key).drop (n + 1))) = true := by
  rw [List.any_eq_true]
  constructor
  · rintro ⟨u, v, rfl, hPv⟩
    rw [splitOnChar_append]
    have hu1 : 1 ≤ (splitOnChar sep u).length :=
      List.length_pos.2 (splitOnChar_ne_nil sep u)
    have hv1 : 1 ≤ (splitOnChar sep v).length :=
      List.length_pos.2 (splitOnChar_ne_nil sep v)
    refine ⟨(splitOnChar sep u).length - 1, List.mem_range.2 ?_, ?_⟩
    · rw [List.length_append]
      omega
    · rw [show (splitOnChar sep u).length - 1 + 1 = (splitOnChar sep u).length by omega,
        List.drop_left]
      exact hPv
  · rintro ⟨n, hn, hPd⟩
    rw [List.mem_range] at hn
    have hd : (splitOnChar sep key).drop (n + 1) ≠ [] := by
      intro h
      rw [h, hP] at hPd
      cases hPd
    have ht : (splitOnChar sep key).take (n + 1) ≠ [] := by
      intro h
      have := congrArg List.length h
      rw [List.length_take] at this
      simp only [List.length_nil] at this
      omega
    refine ⟨joinComps sep ((splitOnChar sep key).take (n + 1)),
      joinComps sep ((splitOnChar sep key).drop (n + 1)), ?_, ?_⟩
    · conv_lhs => rw [← joinComps_splitOnChar sep key,
        ← List.take_append_drop (n + 1) (splitOnChar sep key)]
      exact joinComps_append sep _ ht hd
    · rw [splitOnChar_joinComps sep hd (fun b hb =>
        not_mem_of_mem_splitOnChar sep key b (List.mem_of_mem_drop hb))]
      exact hPd

/-! ## The compiled query against literal keys, in component terms -/

theorem renderToks_itemsMatch (sep : Char) (hsep : sep ≠ '*') :
    ∀ toks : List Tok, toks ≠ [] → (∀ t ∈ toks, WfTok sep t) → ∀ key : List Char,
      itemsMatch sep (makeGlobRe (renderToks sep toks)) key
        = tokCompMatch toks (splitOnChar sep key)
  | [], h, _, _ => absurd rfl h
  | [Tok.lit s], _, hwf, key => by
    obtain ⟨hstar, hsep'⟩ : '*' ∉ s ∧ sep ∉ s := hwf _ (List.mem_cons_self _ _)
    have hre : makeGlobRe (renderToks sep [Tok.lit s]) = [GlobItem.lit s] := by
      show makeGlobRe s = _
      have h0 := @makeGlobRe_append s [] hstar
      rw [List.append_nil] at h0
      rw [h0, makeGlobRe_nil, consChars_lit, List.append_nil]
    rw [hre]
    obtain ⟨x, xs, hx⟩ := List.exists_cons_of_ne_nil (splitOnChar_ne_nil sep key)
    rw [hx]
    show (s.isPrefixOf key && itemsMatch sep [] (key.drop s.length))
      = (s == x && tokCompMatch [] xs)
    rw [Bool.eq_iff_iff, isPrefixOf_and_iff s key (fun v => itemsMatch sep [] v)]
    show (∃ v, key = s ++ v ∧ v.isEmpty = true) ↔ _
    rw [Bool.and_eq_true, beq_iff_eq]
    constructor
    · rintro ⟨v, rfl, hv⟩
      rw [List.isEmpty_iff] at hv
      subst hv
      rw [List.append_nil] at hx
      rw [splitOnChar_no_sep hsep'] at hx
      obtain ⟨h1, h2⟩ := List.cons_eq_cons.mp hx
      exact ⟨h1, by rw [← h2]; rfl⟩
    · rintro ⟨rfl, hxs⟩
      have hxs' : xs = [] := by
        cases xs with
        | nil => rfl
        | cons y ys => exact absurd hxs Bool.false_ne_true
      subst hxs'
      have hkey : key = s := by
        have hj := joinComps_splitOnChar sep key
        rw [hx] at hj
        simp only [joinComps] at hj
        exact hj.symm
      exact ⟨[], by rw [hkey, List.append_nil], rfl⟩
  | [Tok.star], _, _, key => by
    have hre : makeGlobRe (renderToks sep [Tok.star]) =
        [GlobItem.lit [], GlobItem.starNotSep, GlobItem.lit []] := by
      show makeGlobRe ['*'] = _
      rw [makeGlobRe_star_cons [] (by simp), makeGlobRe_nil]
    rw [hre]
    obtain ⟨x, xs, hx⟩ := List.exists_cons_of_ne_nil (splitOnChar_ne_nil sep key)
    rw [hx]
    show _ = tokCompMatch [] xs
    rw [itemsMatch_lit_nil, Bool.eq_iff_iff, itemsMatch_starNotSep_iff]
    have htail := splitOnChar_tail_nil_iff sep key
    rw [hx] at htail
    simp only [List.tail_cons] at htail
    constructor
    · rintro ⟨u, v, hk, hu, hv⟩
      rw [itemsMatch_lit_nil_singleton, List.isEmpty_iff] at hv
      subst hv
      rw [List.append_nil] at hk
      subst hk
      show xs.isEmpty = true
      rw [List.isEmpty_iff]
      exact htail.2 (fun hm => hu sep hm rfl)
    · intro hxs
      have hxs' : xs = [] := List.isEmpty_iff.1 hxs
      have hns : sep ∉ key := htail.1 hxs'
      exact ⟨key, [], (List.append_nil key).symm, fun a ha hac => hns (hac ▸ ha),
        by rw [itemsMatch_lit_nil_singleton]; rfl⟩
  | [Tok.starstar], _, _, key => by
    have hre : makeGlobRe (renderToks sep [Tok.starstar]) =
        [GlobItem.lit [], GlobItem.dotStar, GlobItem.lit []] := by
      show makeGlobRe ['*', '*'] = _
      rw [makeGlobRe_starstar_cons, makeGlobRe_nil]
    rw [hre]
    obtain ⟨x, xs, hx⟩ := List.exists_cons_of_ne_nil (splitOnChar_ne_nil sep key)
    rw [hx]
    have hL : itemsMatch sep
        [GlobItem.lit [], GlobItem.dotStar, GlobItem.lit []] key = true := by
      rw [itemsMatch_lit_nil, itemsMatch_dotStar_iff]
      exact ⟨key, [], (List.append_nil key).symm,
        by rw [itemsMatch_lit_nil_singleton]; rfl⟩
    have hR : tokCompMatch [Tok.starstar] (x :: xs) = true := by
      show ((List.range (x :: xs).length).any fun n =>
        tokCompMatch [] ((x :: xs).drop (n + 1))) = true
      rw [List.any_eq_true]
      refine ⟨xs.length, List.mem_range.2 (by simp), ?_⟩
      rw [List.drop_succ_cons, List.drop_length]
      rfl
    rw [hL, hR]
  | Tok.lit s :: t2 :: ts, _, hwf, key => by
    obtain ⟨hstar, hsep'⟩ : '*' ∉ s ∧ sep ∉ s := hwf _ (List.mem_cons_self _ _)
    have hne : (t2 :: ts : List Tok) ≠ [] := List.cons_ne_nil t2 ts
    have IH := renderToks_itemsMatch sep hsep (t2 :: ts) hne
      (fun t ht => hwf t (List.mem_cons_of_mem _ ht))
    have hP : tokCompMatch (t2 :: ts) [] = false := tokCompMatch_nil_comps _ hne
    have hre : makeGlobRe (renderToks sep (Tok.lit s :: t2 :: ts))
        = consChars (s ++ [sep]) (makeGlobRe (renderToks sep (t2 :: ts))) := by
      show makeGlobRe (s ++ sep :: renderToks sep (t2 :: ts)) = _
      rw [show s ++ sep :: renderToks sep (t2 :: ts)
        = (s ++ [sep]) ++ renderToks sep (t2 :: ts) by simp]
      refine makeGlobRe_append _ ?_
      intro hm
      rcases List.mem_append.1 hm with h | h
      · exact hstar h
      · exact hsep (List.mem_singleton.1 h).symm
    rw [hre, itemsMatch_consChars, Bool.eq_iff_iff,
      isPrefixOf_and_iff (s ++ [sep]) key
        (fun v => itemsMatch sep (makeGlobRe (renderToks sep (t2 :: ts))) v)]
    simp only [IH, List.append_assoc, List.singleton_append]
    obtain ⟨x, xs, hx⟩ := List.exists_cons_of_ne_nil (splitOnChar_ne_nil sep key)
    have hiff := exists_lit_sep_split_iff sep hsep'
      (fun cs => tokCompMatch (t2 :: ts) cs) hP key
    rw [hx] at hiff
    simp only [List.headI, List.tail_cons] at hiff
    rw [hx]
    show _ ↔ (s == x && tokCompMatch (t2 :: ts) xs) = true
    exact hiff
  | Tok.star :: t2 :: ts, _, hwf, key => by
    have hne : (t2 :: ts : List Tok) ≠ [] := List.cons_ne_nil t2 ts
    have IH := renderToks_itemsMatch sep hsep (t2 :: ts) hne
      (fun t ht => hwf t (List.mem_cons_of_mem _ ht))
    have hP : tokCompMatch (t2 :: ts) [] = false := tokCompMatch_nil_comps _ hne
    have hre : makeGlobRe (renderToks sep (Tok.star :: t2 :: ts))
        = GlobItem.lit [] :: GlobItem.starNotSep ::
            consChar sep (makeGlobRe (renderToks sep (t2 :: ts))) := by
      show makeGlobRe ('*' :: sep :: renderToks sep (t2 :: ts)) = _
      rw [makeGlobRe_star_cons _ (by simpa using hsep),
        makeGlobRe_cons_ne _ hsep]
    rw [hre, itemsMatch_lit_nil, Bool.eq_iff_iff,
      itemsMatch_starNotSep_consChar_iff]
    simp only [IH]
    obtain ⟨x, xs, hx⟩ := List.exists_cons_of_ne_nil (splitOnChar_ne_nil sep key)
    have hiff := exists_first_sep_split_iff sep
      (fun cs => tokCompMatch (t2 :: ts) cs) hP key
    rw [hx] at hiff
    simp only [List.tail_cons] at hiff
    rw [hx]
    show _ ↔ tokCompMatch (t2 :: ts) xs = true
    exact hiff
  | Tok.starstar :: t2 :: ts, _, hwf, key => by
    have hne : (t2 :: ts : List Tok) ≠ [] := List.cons_ne_nil t2 ts
    have IH := renderToks_itemsMatch sep hsep (t2 :: ts) hne
      (fun t ht => hwf t (List.mem_cons_of_mem _ ht))
    have hP : tokCompMatch (t2 :: ts) [] = false := tokCompMatch_nil_comps _ hne
    have hre : makeGlobRe (renderToks sep (Tok.starstar :: t2 :: ts))
        = GlobItem.lit [] :: GlobItem.dotStar ::
            consChar sep (makeGlobRe (renderToks sep (t2 :: ts))) := by
      show makeGlobRe ('*' :: '*' :: sep :: renderToks sep (t2 :: ts)) = _
      rw [makeGlobRe_starstar_cons, makeGlobRe_cons_ne _ hsep]
    rw [hre, itemsMatch_lit_nil, Bool.eq_iff_iff,
      itemsMatch_dotStar_consChar_iff]
    simp only [IH]
    exact exists_any_sep_split_iff sep (fun cs => tokCompMatch (t2 :: ts) cs) hP key

/-- C2, counterexample.  The claim reads `**` as "zero or more components",
so the query `a.**` (tokens `a`, `**`) would component-match the stored key
`a` (with `**` standing for zero components) and `lookup` would return its
value.  The code compiles `a.**` to `^a\..*$`, whose literal `a.` requires
the separator to be present: `lookup` returns the empty list. -/
theorem starstar_zero_components_countermodel :
    renderToks '.' [Tok.lit [ 'a'], Tok.starstar] = (r"a.**").toList ∧
      getMatchingItems '.' [([ 'a'], 0)] ((r"a.**").toList) = [] ∧
      claimCompMatch [Tok.lit [ 'a'], Tok.starstar] (splitOnChar '.' [ 'a']) = true := by
  decide

/-- C2, amended.  For a registry whose stored keys are all literal (no
wildcard characters) and a query whose components are literal, `*` or `**`,
`lookup` returns exactly the values of the keys whose component sequence
matches the query's, with `*` standing for exactly one (possibly empty)
component and `**` standing for ONE or more components under the configured
separator.  (The empty pattern is a single zero-length component and matches
itself and `**`; `*` alone matches every single-component pattern; `**`
matches every pattern including the empty one, since every pattern has at
least one component.) -/
theorem lookup_literal_keys_component_semantics {V : Type} (sep : Char)
    (toks : List Tok) (entries : List (List Char × V))
    (hsep : sep ≠ '*') (htoks : toks ≠ []) (hwf : ∀ t ∈ toks, WfTok sep t)
    (hkeys : ∀ kv ∈ entries, '*' ∉ kv.1) :
    getMatchingItems sep entries (renderToks sep toks)
      = (entries.filter
          (fun kv => tokCompMatch toks (splitOnChar sep kv.1))).map Prod.snd := by
  induction entries with
  | nil => rfl
  | cons kv rest ih =>
    have hkv : '*' ∉ kv.1 := hkeys kv (List.mem_cons_self _ _)
    have hrest := ih (fun kv' h => hkeys kv' (List.mem_cons_of_mem _ h))
    have hmain := renderToks_itemsMatch sep hsep toks htoks hwf kv.1
    show List.filterMap _ (kv :: rest) = _
    rw [List.filterMap_cons, List.filter_cons]
    by_cases hm : tokCompMatch toks (splitOnChar sep kv.1) = true
    · simp only [hmain, hm, if_true]
      simp only [List.map_cons]
      exact congrArg _ hrest
    · simp only [hmain, hm, if_false, Bool.false_eq_true]
      simp only [hkv, if_false]
      exact hrest

theorem lookup_literal_keys_component_semantics_witness :
    getMatchingItems '.' sampleEntries (renderToks '.' [Tok.lit [ 'a'], Tok.star]) =
      (sampleEntries.filter
        (fun kv => tokCompMatch [Tok.lit [ 'a'], Tok.star]
          (splitOnChar '.' kv.1))).map Prod.snd :=
  lookup_literal_keys_component_semantics '.' [Tok.lit [ 'a'], Tok.star] sampleEntries
    (by decide) (by decide) (by decide) (by decide)

/-! ## The GlobbableDict with its cache, and the Registry on top (claims C4, C9)

The dict itself is an insertion-ordered association list (`entries`), as a
CPython dict.  The registry's values are Python `set` objects shared by
reference between the map and any cached `glob` results; sharing is made
explicit by storing set identities (`Nat`) in the map and the sets
themselves in a `heap`, dereferenced at read time. -/

/-- The exceptions raised by the modelled code. -/
inductive PyErr where
  | attributeError
  | keyError
  | valueError
deriving DecidableEq

/-- The state of a `GlobbableDict`: its configuration, the backing map in
insertion order, and the glob cache. -/
structure GDict (V : Type) where
  sep : Char
  allowWildcardKeys : Bool
  entries : List (List Char × V)
  cache : List (List Char × List V)
deriving DecidableEq

/-- CPython dict assignment: replace in place when the key is present
(keeping its position), append otherwise. -/
def insertEntry {V : Type} : List (List Char × V) → List Char → V → List (List Char × V)
  | [], k, v => [(k, v)]
  | e :: es, k, v => if e.1 = k then (k, v) :: es else e :: insertEntry es k v

/-- `GlobbableDict.__setitem__`: reject wildcard keys unless allowed, then
store the value under the key and clear the entire cache.  The error is
raised before any mutation. -/
def setItem {V : Type} (d : GDict V) (k : List Char) (v : V) : Option PyErr × GDict V :=
  if ¬d.allowWildcardKeys ∧ '*' ∈ k then (some PyErr.attributeError, d)
  else (none, { d with entries := insertEntry d.entries k v, cache := [] })

/-- `GlobbableDict.__delitem__`: delete the key (KeyError when absent,
with no mutation) and clear the entire cache. -/
def delItem {V : Type} (d : GDict V) (k : List Char) : Option PyErr × GDict V :=
  if (d.entries.lookup k).isSome then
    (none, { d with entries := d.entries.filter (fun e => e.1 != k), cache := [] })
  else (some PyErr.keyError, d)

/-- `GlobbableDict.glob`: serve from the cache when the query is present;
otherwise recompute with `_get_matching_items`, post-process through the
configured transform, store the result under the query, and return it. -/
def glob {V : Type} (transform : Option (List V → List V)) (d : GDict V)
    (q : List Char) : List V × GDict V :=
  match d.cache.lookup q with
  | some vs => (vs, d)
  | none =>
    let vs0 := getMatchingItems d.sep d.entries q
    let vs := match transform with
      | some f => f vs0
      | none => vs0
    (vs, { d with cache := (q, vs) :: d.cache })

/-- The `Registry`'s state: the pattern map (pattern → set identity) and the
heap of `set` objects.  References are identified by `Nat`. -/
structure RegState where
  dict : GDict Nat
  heap : List (List Nat)
deriving DecidableEq

def heapGet (heap : List (List Nat)) (sid : Nat) : List Nat := heap.getD sid []

def heapSet (heap : List (List Nat)) (sid : Nat) (s : List Nat) : List (List Nat) :=
  heap.set sid s

/-- Python `set.add`: a no-op when the element is already present. -/
def setAdd (s : List Nat) (r : Nat) : List Nat := if r ∈ s then s else s ++ [r]

/-- `Registry.__init__`: a fresh `GlobbableDict(default_factory=lambda: set())`
with the default separator and wildcard keys disabled. -/
def initRegState : RegState :=
  { dict := { sep := '.', allowWildcardKeys := false, entries := [], cache := [] },
    heap := [] }

/-- `Registry.register`, at the level of the pattern map:
`self._glob_dict[pattern].add(ref)`.  A present pattern hands back its set
object, which is mutated in place — the map and the cache are untouched.  A
missing pattern triggers `defaultdict.__missing__`, which builds a fresh
empty set and installs it through the overridden `__setitem__` (clearing the
cache) before the `add` runs. -/
def registerRef (st : RegState) (p : List Char) (r : Nat) : Option PyErr × RegState :=
  match st.dict.entries.lookup p with
  | some sid =>
    (none, { st with heap := heapSet st.heap sid (setAdd (heapGet st.heap sid) r) })
  | none =>
    let sid := st.heap.length
    match setItem st.dict p sid with
    | (some e, d') => (some e, { st with dict := d' })
    | (none, d') =>
      let heap' := st.heap ++ [[]]
      (none, { dict := d', heap := heapSet heap' sid (setAdd (heapGet heap' sid) r) })

/-- `Registry._unregister_proxy`: `self._glob_dict[pattern].remove(proxy)`.
A missing pattern triggers `__missing__` exactly as in `registerRef` — an
empty set is installed and the cache cleared — after which `set.remove`
raises KeyError, the reference not being in the fresh set; a present pattern
whose set lacks the reference raises KeyError as well.  (The `if Registry:`
and `if self:` guards in the source tolerate interpreter teardown only; in a
live interpreter they are always taken and are not modelled.) -/
def unregisterProxy (st : RegState) (p : List Char) (r : Nat) : Option PyErr × RegState :=
  match st.dict.entries.lookup p with
  | some sid =>
    let s := heapGet st.heap sid
    if r ∈ s then (none, { st with heap := heapSet st.heap sid (s.erase r) })
    else (some PyErr.keyError, st)
  | none =>
    let sid := st.heap.length
    match setItem st.dict p sid with
    | (some e, d') => (some e, { st with dict := d' })
    | (none, d') => (some PyErr.keyError, { dict := d', heap := st.heap ++ [[]] })

/-- A `glob` on the registry's dict, the returned set objects dereferenced
through the current heap, as any consumer (the dispatcher) sees them. -/
def registryGlob (st : RegState) (q : List Char) : List (List Nat) × RegState :=
  let p := glob none st.dict q
  (p.1.map (heapGet st.heap), { st with dict := p.2 })

/-- The operations the claim interleaves on one registry. -/
inductive RegOp where
  | register (p : List Char) (r : Nat)
  | unregister (p : List Char) (r : Nat)
  | delPattern (p : List Char)
  | lookupOp (q : List Char)
deriving DecidableEq

def applyRegOp (st : RegState) : RegOp → RegState
  | RegOp.register p r => (registerRef st p r).2
  | RegOp.unregister p r => (unregisterProxy st p r).2
  | RegOp.delPattern p => { st with dict := (delItem st.dict p).2 }
  | RegOp.lookupOp q => (registryGlob st q).2

def runRegOps (ops : List RegOp) : RegState :=
  ops.foldl applyRegOp initRegState

/-- Every cached result equals a fresh scan of the current map. -/
def CacheCoherent (st : RegState) : Prop :=
  ∀ q vs, st.dict.cache.lookup q = some vs →
    vs = getMatchingItems st.dict.sep st.dict.entries q

theorem cacheCoherent_glob {st : RegState} (h : CacheCoherent st) (q : List Char) :
    CacheCoherent (registryGlob st q).2 ∧
      (glob none st.dict q).1 = getMatchingItems st.dict.sep st.dict.entries q := by
  unfold registryGlob glob
  cases hc : st.dict.cache.lookup q with
  | some vs => exact ⟨h, h q vs hc⟩
  | none =>
    refine ⟨?_, rfl⟩
    intro q' vs' hl
    simp only at hl
    rw [List.lookup] at hl
    split at hl
    · cases hl
      next heq =>
        have : q' = q := by simpa using heq
        rw [this]
    · exact h q' vs' hl

theorem cacheCoherent_of {st st' : RegState} (h : CacheCoherent st)
    (hd : st'.dict = st.dict ∨ st'.dict.cache = []) : CacheCoherent st' := by
  intro q vs hq
  rcases hd with hd | hd
  · rw [hd] at hq ⊢
    exact h q vs hq
  · rw [hd] at hq
    simp only [List.lookup] at hq
    cases hq

theorem registerRef_dict (st : RegState) (p : List Char) (r : Nat) :
    (registerRef st p r).2.dict = st.dict ∨ (registerRef st p r).2.dict.cache = [] := by
  unfold registerRef
  split
  · exact Or.inl rfl
  · dsimp only
    split
    next e d' hs =>
      unfold setItem at hs
      split at hs
      · cases hs
        exact Or.inl rfl
      · cases hs
    next d' hs =>
      unfold setItem at hs
      split at hs
      · cases hs
      · cases hs
        exact Or.inr rfl

theorem unregisterProxy_dict (st : RegState) (p : List Char) (r : Nat) :
    (unregisterProxy st p r).2.dict = st.dict ∨
      (unregisterProxy st p r).2.dict.cache = [] := by
  unfold unregisterProxy
  split
  · dsimp only
    split
    · exact Or.inl rfl
    · exact Or.inl rfl
  · dsimp only
    split
    next e d' hs =>
      unfold setItem at hs
      split at hs
      · cases hs
        exact Or.inl rfl
      · cases hs
    next d' hs =>
      unfold setItem at hs
      split at hs
      · cases hs
      · cases hs
        exact Or.inr rfl

theorem delItem_dict {V : Type} (d : GDict V) (k : List Char) :
    (delItem d k).2 = d ∨ (delItem d k).2.cache = [] := by
  unfold delItem
  split
  · exact Or.inr rfl
  · exact Or.inl rfl

theorem cacheCoherent_applyRegOp {st : RegState} (h : CacheCoherent st) (op : RegOp) :
    CacheCoherent (applyRegOp st op) := by
  cases op with
  | register p r => exact cacheCoherent_of h (registerRef_dict st p r)
  | unregister p r => exact cacheCoherent_of h (unregisterProxy_dict st p r)
  | delPattern p => exact cacheCoherent_of h (delItem_dict st.dict p)
  | lookupOp q => exact (cacheCoherent_glob h q).1

theorem cacheCoherent_foldl (ops : List RegOp) :
    ∀ st : RegState, CacheCoherent st → CacheCoherent (ops.foldl applyRegOp st) := by
  induction ops with
  | nil => exact fun _ h => h
  | cons op ops ih => exact fun st h => ih _ (cacheCoherent_applyRegOp h op)

theorem cacheCoherent_runRegOps (ops : List RegOp) : CacheCoherent (runRegOps ops) := by
  refine cacheCoherent_foldl ops initRegState ?_
  intro q vs h
  simp only [initRegState, List.lookup] at h
  cases h

/-- C4.  In every sequential interleaving of insert, remove, and lookup
operations on one registry, each lookup (whether served from the cache or
recomputed) returns exactly the matches for the registry state as of the
last completed mutation, never a stale pre-mutation result: every map insert
and every map delete clears the entire cache, and a registration added to an
already-existing pattern's set mutates the shared set object in place and is
therefore still visible through previously cached results.  Formally:
dereferencing what `glob` returns through the current heap always equals a
fresh scan of the current map. -/
theorem lookup_reflects_completed_mutations (ops : List RegOp) (q : List Char) :
    (registryGlob (runRegOps ops) q).1
      = (getMatchingItems (runRegOps ops).dict.sep (runRegOps ops).dict.entries q).map
          (heapGet (runRegOps ops).heap) := by
  show ((glob none (runRegOps ops).dict q).1).map (heapGet (runRegOps ops).heap) = _
  rw [(cacheCoherent_glob (cacheCoherent_runRegOps ops) q).2]

-- A cached result stays valid across a set-level registration: after
-- caching `a.*`, registering a second handler under the existing pattern
-- `a.b` is visible through the cached entry.
example :
    (registryGlob (runRegOps
      [RegOp.register (r"a.b").toList 0,
       RegOp.lookupOp (r"a.*").toList,
       RegOp.register (r"a.b").toList 1]) ((r"a.*").toList)).1 = [[0, 1]] := by
  decide

-- A map-level delete clears the cache: the lookup after the delete no
-- longer sees the removed pattern.
example :
    (registryGlob (runRegOps
      [RegOp.register (r"a.b").toList 0,
       RegOp.register (r"a.c").toList 1,
       RegOp.lookupOp (r"a.*").toList,
       RegOp.delPattern (r"a.c").toList]) ((r"a.*").toList)).1 = [[0]] := by
  decide

/-! ## The Event fan-out object (`wireworks/event.py`; claims C5, C8)

A call in the snapshot is a handler identity together with a flag saying
whether, while being submitted and run, that handler (or a concurrent
caller) invokes `try_cancel_pending_calls` on its own event — as the first
handler does in `event_test.test_try_cancel`.  A future records the call it
was created for and whether `Future.cancel` has been attempted on it. -/

structure EvFuture where
  callId : Nat
  cancelRequested : Bool
deriving DecidableEq

structure EventState where
  calls : List (Nat × Bool)
  cancelled : Bool
  dispatchStarted : Bool
  futures : List EvFuture
  completedFutures : List EvFuture
  unexecuted : List (Nat × Bool)
deriving DecidableEq

/-- `Event.__init__(calls, executor)`. -/
def initEvent (calls : List (Nat × Bool)) : EventState :=
  { calls := calls, cancelled := false, dispatchStarted := false,
    futures := [], completedFutures := [], unexecuted := [] }

/-- `Event.try_cancel_pending_calls`: set the cancellation flag and attempt
`Future.cancel` on every future thrown so far — best effort: the attempt is
recorded, with no promise that any work actually stops. -/
def tryCancelPendingCalls (st : EventState) : EventState :=
  { st with cancelled := true,
            futures := st.futures.map (fun f => { f with cancelRequested := true }) }

/-- The body of `Event.go`'s loop.  When the cancellation flag is set the
call is recorded as unexecuted and never submitted; otherwise the call is
submitted (its handler running `try_cancel_pending_calls` mid-submission
when its flag is set — the new future is appended only after `submit`
returns, so that cancel attempt does not see it). -/
def goLoop : EventState → List (Nat × Bool) → EventState
  | st, [] => st
  | st, c :: cs =>
    if st.cancelled then
      goLoop { st with unexecuted := st.unexecuted ++ [c] } cs
    else
      let st1 := if c.2 then tryCancelPendingCalls st else st
      goLoop { st1 with
        futures := st1.futures ++ [{ callId := c.1, cancelRequested := false }] } cs

/-- `Event.go`: raise ValueError when the dispatch has already started
(leaving every field untouched), otherwise mark the dispatch started and
walk the snapshot. -/
def go (st : EventState) : Option PyErr × EventState :=
  if st.dispatchStarted then (some PyErr.valueError, st)
  else (none, goLoop { st with dispatchStarted := true } st.calls)

theorem goLoop_dispatchStarted : ∀ (cs : List (Nat × Bool)) (st : EventState),
    (goLoop st cs).dispatchStarted = st.dispatchStarted
  | [], _ => rfl
  | c :: cs, st => by
    rw [goLoop]
    split
    · rw [goLoop_dispatchStarted cs]
    · dsimp only
      rw [goLoop_dispatchStarted cs]
      by_cases hc : c.2 = true <;> simp [hc, tryCancelPendingCalls]

/-- C5.  Invoking `go` a second time on the same Event raises the
duplicate-dispatch ValueError synchronously and performs no additional
submissions: the returned state is exactly the state after the first `go`,
so the futures, completed and unexecuted lists are unchanged by the failed
second call. -/
theorem go_twice_duplicate_dispatch (calls : List (Nat × Bool)) :
    go (go (initEvent calls)).2 = (some PyErr.valueError, (go (initEvent calls)).2) := by
  have hs : (go (initEvent calls)).2.dispatchStarted = true := by
    show (goLoop { initEvent calls with dispatchStarted := true } calls).dispatchStarted = true
    rw [goLoop_dispatchStarted]
  rw [go, if_pos hs]

theorem goLoop_cancelled_all_unexecuted : ∀ (cs : List (Nat × Bool)) (st : EventState),
    st.cancelled = true → goLoop st cs = { st with unexecuted := st.unexecuted ++ cs }
  | [], st, _ => by simp [goLoop]
  | c :: cs, st, h => by
    rw [goLoop, if_pos h,
      goLoop_cancelled_all_unexecuted cs { st with unexecuted := st.unexecuted ++ [c] } h]
    simp

theorem goLoop_no_trigger : ∀ (pre rest : List (Nat × Bool)) (st : EventState),
    st.cancelled = false → (∀ c ∈ pre, c.2 = false) →
      goLoop st (pre ++ rest) = goLoop
        { st with futures :=
            st.futures ++ pre.map (fun c => { callId := c.1, cancelRequested := false }) } rest
  | [], rest, st, _, _ => by simp
  | c :: pre, rest, st, hc, hpre => by
    have hc2 : c.2 = false := hpre c (List.mem_cons_self _ _)
    rw [List.cons_append, goLoop, if_neg (by rw [hc]; exact Bool.false_ne_true)]
    dsimp only
    rw [if_neg (by rw [hc2]; exact Bool.false_ne_true),
      goLoop_no_trigger pre rest
        { st with futures := st.futures ++ [{ callId := c.1, cancelRequested := false }] }
        hc (fun c' h => hpre c' (List.mem_cons_of_mem _ h))]
    simp

theorem go_with_trigger (pre : List (Nat × Bool)) (t : Nat × Bool)
    (post : List (Nat × Bool)) (hpre : ∀ c ∈ pre, c.2 = false) (ht : t.2 = true) :
    go (initEvent (pre ++ t :: post))
      = (none,
         { calls := pre ++ t :: post, cancelled := true, dispatchStarted := true,
           futures := pre.map (fun c => { callId := c.1, cancelRequested := true })
             ++ [{ callId := t.1, cancelRequested := false }],
           completedFutures := [], unexecuted := post }) := by
  rw [go, if_neg (by exact Bool.false_ne_true)]
  show (none, goLoop _ (pre ++ t :: post)) = _
  rw [goLoop_no_trigger pre (t :: post) _ rfl hpre, goLoop, if_neg (by
    show ¬(false = true)
    exact Bool.false_ne_true)]
  dsimp only
  rw [if_pos ht, goLoop_cancelled_all_unexecuted post _ rfl]
  simp only [tryCancelPendingCalls, initEvent, List.nil_append, List.map_map]
  rfl

theorem dropWhile_head_not {α : Type} {p : α → Bool} :
    ∀ {l : List α} {t : α} {post : List α}, l.dropWhile p = t :: post → p t = false := by
  intro l
  induction l with
  | nil =>
    intro t post h
    cases h
  | cons a l ih =>
    intro t post h
    rw [List.dropWhile_cons] at h
    split at h
    · exact ih h
    · next hp =>
      cases h
      exact Bool.eq_false_iff.mpr hp

/-- C8.  Once the cancellation flag has been set on an event, every handler
whose turn in the `go` iteration has not yet come is skipped entirely,
recorded as unexecuted, and never submitted to the executor (the number of
futures stays below its position); handlers already submitted at the moment
cancellation was requested receive only a best-effort cancel attempt (their
futures carry the cancel-request mark; the triggering call's own future is
appended after the attempt and is unmarked). -/
theorem cancellation_skips_unsubmitted (calls : List (Nat × Bool)) (i j : Nat)
    (ci cj : Nat × Bool) (hci : calls[i]? = some ci) (hcj : calls[j]? = some cj)
    (hij : i < j) (hi : ci.2 = true) :
    cj ∈ (go (initEvent calls)).2.unexecuted ∧
      (go (initEvent calls)).2.futures.length ≤ j ∧
      ∀ f ∈ (go (initEvent calls)).2.futures.dropLast, f.cancelRequested = true := by
  have hsplit : calls.takeWhile (fun c => !c.2) ++ calls.dropWhile (fun c => !c.2)
      = calls := List.takeWhile_append_dropWhile _ _
  have hpre : ∀ c ∈ calls.takeWhile (fun c => !c.2), c.2 = false := by
    intro c hcmem
    have := List.mem_takeWhile_imp hcmem
    simpa using this
  have hne : calls.dropWhile (fun c => !c.2) ≠ [] := by
    intro h0
    rw [h0, List.append_nil] at hsplit
    have hmem : ci ∈ calls := List.getElem?_mem hci
    rw [← hsplit] at hmem
    rw [hpre ci hmem] at hi
    exact absurd hi Bool.false_ne_true
  obtain ⟨t, post, hd⟩ := List.exists_cons_of_ne_nil hne
  have ht : t.2 = true := by
    have := dropWhile_head_not hd
    simpa using this
  have hcalls : calls = calls.takeWhile (fun c => !c.2) ++ t :: post := by
    rw [← hd]
    exact hsplit.symm
  have hlen : (calls.takeWhile (fun c => !c.2)).length ≤ i := by
    by_contra hlt
    push_neg at hlt
    have hg : calls[i]? = (calls.takeWhile (fun c => !c.2))[i]? := by
      conv_lhs => rw [hcalls]
      exact List.getElem?_append_left hlt
    rw [hg] at hci
    have : ci ∈ calls.takeWhile (fun c => !c.2) := List.getElem?_mem hci
    rw [hpre ci this] at hi
    exact absurd hi Bool.false_ne_true
  have hgo := go_with_trigger (calls.takeWhile (fun c => !c.2)) t post hpre ht
  rw [← hcalls] at hgo
  have hcj' : (calls.takeWhile (fun c => !c.2) ++ t :: post)[j]? = some cj := by
    rw [← hcalls]
    exact hcj
  rw [hgo]
  dsimp only
  refine ⟨?_, ?_, ?_⟩
  · have hr : ((calls.takeWhile (fun c => !c.2)) ++ t :: post)[j]?
        = (t :: post)[j - (calls.takeWhile (fun c => !c.2)).length]? :=
      List.getElem?_append_right (le_trans hlen (le_of_lt hij))
    rw [hr] at hcj'
    obtain ⟨k, hk⟩ : ∃ k, j - (calls.takeWhile (fun c => !c.2)).length = k + 1 :=
      ⟨j - (calls.takeWhile (fun c => !c.2)).length - 1, by omega⟩
    rw [hk, List.getElem?_cons_succ] at hcj'
    exact List.getElem?_mem hcj'
  · rw [List.length_append, List.length_map]
    simp only [List.length_cons, List.length_nil]
    omega
  · rw [List.dropLast_concat]
    intro f hf
    obtain ⟨c, _, rfl⟩ := List.mem_map.1 hf
    rfl

theorem cancellation_skips_unsubmitted_witness :
    ((2, false) : Nat × Bool) ∈
        (go (initEvent [(0, true), (1, false), (2, false)])).2.unexecuted ∧
      (go (initEvent [(0, true), (1, false), (2, false)])).2.futures.length ≤ 2 ∧
      ∀ f ∈ (go (initEvent [(0, true), (1, false), (2, false)])).2.futures.dropLast,
        f.cancelRequested = true :=
  cancellation_skips_unsubmitted [(0, true), (1, false), (2, false)] 0 2
    (0, true) (2, false) (by decide) (by decide) (by decide) (by decide)

/-! ## Callable references at resolution time, the current-event cell, and
`Dispatcher.call` (`wireworks/dispatcher.py`, `wireworks/static_utilities.py`;
claims C1, C6, C10) -/

/-- A `CallableReference` as the dispatcher resolves it: a strong reference
always hands back its handler; a weak reference hands back its target while
every observed target is alive (for a bound method, the reconstructed
partial application) and nothing once a target is gone. -/
inductive CRef (H : Type) where
  | strong (h : H)
  | weakAlive (h : H)
  | weakDead
deriving DecidableEq

/-- `StrongCallableReference.get_callable` and
`WeakCallableReference.get_callable`. -/
def getCallable {H : Type} : CRef H → Option H
  | CRef.strong h => some h
  | CRef.weakAlive h => some h
  | CRef.weakDead => none

/-- `set_current_event`: unconditionally overwrite the thread-local cell. -/
def setCurrentEvent {E : Type} (_cell : Option E) (e : E) : Option E := some e

/-- `clear_current_event`: `del _event_threadlocal.event` — AttributeError
when the cell is unset; in either case the cell ends unset (never restored
to a previous value). -/
def clearCurrentEvent {E : Type} : Option E → Option PyErr × Option E
  | none => (some PyErr.attributeError, none)
  | some _ => (none, none)

/-- `current_event`: the cell's event, or the no-active-event ValueError. -/
def currentEvent {E : Type} : Option E → Except PyErr E
  | some e => Except.ok e
  | none => Except.error PyErr.valueError

/-- The shim wrapped around one handler by `Dispatcher.call` and `Event.go`:
publish the event in the cell, invoke the handler (which may itself change
the cell, e.g. by a nested synchronous dispatch), and in the `finally`
clear the cell.  The shim's outcome is the handler's, unless the `finally`'s
`clear_current_event` raises, which replaces it. -/
def runShim {E R : Type} (ev : E) (cell : Option E)
    (body : Option E → Option E × Except PyErr R) : Option E × Except PyErr R :=
  let p := body (setCurrentEvent cell ev)
  match clearCurrentEvent p.1 with
  | (some e, cell') => (cell', Except.error e)
  | (none, cell') => (cell', p.2)

/-- The object `Dispatcher.call` builds and returns: the `Event` defined in
`dispatcher.py`, which holds a list of futures and nothing else. -/
structure DispatcherEvent where
  futures : List (Except PyErr Nat)

/-- `Dispatcher._all_matching_callables`: flatten the ref-sets returned by
`glob(pattern)`, resolve every reference, and keep the truthy results. -/
def allMatchingCallables (d : GDict (List (CRef Nat))) (pattern : List Char) :
    List Nat × GDict (List (CRef Nat)) :=
  let p := glob none d pattern
  ((p.1.flatten.map getCallable).reduceOption, p.2)

/-- `Dispatcher.call` with the default `SynchronousExecutor`: resolve the
matching callables, and for each one submit the shim — which the executor
runs immediately on the calling thread, publishing the event cell, invoking
the handler with the call's arguments (recorded in the trace), and clearing
the cell — collecting each already-completed future on the returned
dispatcher-local event.  Returns the event, the invocation trace, the final
cell, and the dict (whose glob cache the lookup may have populated). -/
def dispatcherCall {A : Type} (d : GDict (List (CRef Nat))) (pattern : List Char)
    (args : A) (cell0 : Option Nat) :
    DispatcherEvent × List (Nat × A) × Option Nat × GDict (List (CRef Nat)) :=
  let p := allMatchingCallables d pattern
  let final := p.1.foldl
    (fun (acc : List (Except PyErr Nat) × List (Nat × A) × Option Nat) h =>
      let r := runShim 0 acc.2.2 (fun c => (c, Except.ok h))
      (acc.1 ++ [r.2], acc.2.1 ++ [(h, args)], r.1))
    ([], [], cell0)
  ({ futures := final.1 }, final.2.1, final.2.2, p.2)

/-- The end-to-end scenario A registry: handlers 0 and 1 registered under
the literal patterns `foo.bar` and `foo.baz`. -/
def scenarioADict : GDict (List (CRef Nat)) :=
  { sep := '.', allowWildcardKeys := false,
    entries := [((r"foo.bar").toList, [CRef.strong 0]),
                ((r"foo.baz").toList, [CRef.strong 1])],
    cache := [] }

/-- C6.  With handlers registered under the literal patterns `foo.bar` and
`foo.baz` and the default synchronous executor, calling through a dispatcher
with filter `foo.*` invokes each of the two handlers exactly once, in the
snapshot's submission order, each receiving exactly the arguments passed to
`call`; both completed futures land on the returned event. -/
theorem call_foo_star_invokes_each_once {A : Type} (args : A) :
    (dispatcherCall scenarioADict ((r"foo.*").toList) args none).2.1
        = [(0, args), (1, args)] ∧
      (dispatcherCall scenarioADict ((r"foo.*").toList) args none).1
        = { futures := [Except.ok 0, Except.ok 1] } := by
  exact ⟨rfl, rfl⟩

/-- The C1 registry: one strong handler and one expired weak reference under
`foo.bar`. -/
def c1Dict : GDict (List (CRef Nat)) :=
  { sep := '.', allowWildcardKeys := false,
    entries := [((r"foo.bar").toList, [CRef.strong 7, CRef.weakDead])],
    cache := [] }

/-- C1 (code evaluation at the failing input).  `Dispatcher.call` resolves
the references of every matched pattern-set, discards the expired weak
reference, submits the resolved handler and returns the `Event` defined in
`dispatcher.py` owning the completed future — an object with a futures list
and nothing else (the claim's cancellation and aggregate-wait operations
live on `wireworks.event.Event`, which `call` never constructs). -/
theorem dispatcher_call_returns_futures_only_event {A : Type} (args : A) :
    (dispatcherCall c1Dict ((r"foo.*").toList) args none).1
        = { futures := [Except.ok 7] } ∧
      (dispatcherCall c1Dict ((r"foo.*").toList) args none).2.1 = [(7, args)] := by
  exact ⟨rfl, rfl⟩

/-- C10.  The ambient current-event cell is unconditionally deleted — not
restored to its previous value — on every handler exit path: after a nested
synchronous dispatch completes inside an outer handler, the cell is unset,
`current_event()` raises the no-active-event error for the remainder of the
outer handler, clearing the cell when no event is set raises AttributeError
rather than being a no-op, and the outer shim's own `finally` then raises
that AttributeError as the outer future's outcome. -/
theorem current_event_cell_unconditionally_deleted (prev : Option Nat)
    (outerEv innerEv : Nat) :
    (runShim innerEv (setCurrentEvent prev outerEv) (fun c => (c, Except.ok 0))).1
        = none ∧
      currentEvent
        ((runShim innerEv (setCurrentEvent prev outerEv)
          (fun c => (c, Except.ok 0))).1)
        = Except.error PyErr.valueError ∧
      clearCurrentEvent (none : Option Nat) = (some PyErr.attributeError, none) ∧
      (runShim outerEv prev (fun cOuter =>
          ((runShim innerEv cOuter (fun c => (c, Except.ok 0))).1,
            Except.ok 0))).2 = Except.error PyErr.attributeError := by
  exact ⟨rfl, rfl, rfl, rfl⟩

/-! ## `Event.first_result` (claim C7)

The statuses of the futures are fixed for the duration of the call, the
setting of the spec's scenario (b): the timeout elapses with no usable
completion arriving. -/

/-- The completion state of a `concurrent.futures.Future`: pending,
cancelled, or finished with a value or a raised exception. -/
inductive FStatus where
  | pending
  | cancelledF
  | finished (r : Except Nat Nat)

/-- Cancelled and finished futures count as done for `futures_wait`. -/
def isDone : FStatus → Bool
  | FStatus.pending => false
  | _ => true

/-- The `for future in done: if not future.cancelled(): return
future.result(0)` scan: the first non-cancelled done future's outcome. -/
def firstUsable : List FStatus → Option (Except Nat Nat)
  | [] => none
  | FStatus.finished r :: _ => some r
  | _ :: rest => firstUsable rest

/-- The `while possible:` loop of `first_result`.  Each iteration models one
`futures_wait(self._futures, timeout, FIRST_COMPLETED)` against the fixed
statuses: the done set is every non-pending future (empty when the timeout
elapses with nothing completed).  When a done future is usable its result is
returned; otherwise `possible` becomes the not-done set and, when that is
non-empty, the loop waits again.  `fuel` bounds the number of waits
observed; `none` means the call is still looping after that many waits. -/
def firstResultLoop (futs : List FStatus) : Nat → Option (Option (Except Nat Nat))
  | 0 => none
  | fuel + 1 =>
    match firstUsable (futs.filter isDone) with
    | some r => some (some r)
    | none =>
      if (futs.filter (fun f => !isDone f)).isEmpty then some none
      else firstResultLoop futs fuel

/-- `Event.first_result(timeout)`: `possible = self._futures`; the loop body
runs only while `possible` is non-empty, and `None` is returned once it is
exhausted. -/
def firstResult (futs : List FStatus) (fuel : Nat) : Option (Option (Except Nat Nat)) :=
  if futs.isEmpty then some none else firstResultLoop futs fuel

/-- C7 (code evaluation at the failing inputs).  With three pending futures,
`first_result(timeout)` never returns: `futures_wait` times out with an
empty done set, `possible` becomes the (non-empty) not-done set, and the
loop waits the full timeout again, forever — the claim's (and the test
`test_first_return_value`'s) expected `None` after one timeout never
happens.  Likewise with one cancelled and one pending future the loop spins:
the cancelled future is always in the done set, never usable.  Only a
non-cancelled completion is returned (skipping cancelled ones), as the last
conjunct shows. -/
theorem first_result_timeout_never_returns (fuel : Nat) :
    firstResult [FStatus.pending, FStatus.pending, FStatus.pending] fuel = none ∧
      firstResult [FStatus.cancelledF, FStatus.pending] fuel = none ∧
      firstResult [FStatus.cancelledF, FStatus.finished (Except.ok 7)] (fuel + 1)
        = some (some (Except.ok 7)) := by
  induction fuel with
  | zero => exact ⟨rfl, rfl, rfl⟩
  | succ n ih => exact ⟨ih.1, ih.2.1, rfl⟩

/-! ## Weak callable references and expiry notification (claim C9) -/

/-- The observable wiring of a `WeakCallableReference`: the identities of
the targets it weak-observes — one for a plain callable; the underlying
function AND the owning instance for a bound method, as
`_set_properties_for_class_method` installs — and whether a
`dereference_callback` was supplied.  Every observed target's `weakref.ref`
is created with `self._dereference` as its death callback. -/
structure WeakCallRef where
  targets : List Nat
  hasCallback : Bool
deriving DecidableEq

/-- `WeakCallableReference.__init__` with
`_set_properties_for_class_method`: a plain callable contributes one
observed target; a bound method replaces it with the raw function and adds
the owning instance. -/
def mkWeakCallableReference (fnTarget : Nat) (boundInst : Option Nat)
    (hasCallback : Bool) : WeakCallRef :=
  match boundInst with
  | none => { targets := [fnTarget], hasCallback := hasCallback }
  | some inst => { targets := [fnTarget, inst], hasCallback := hasCallback }

/-- How many times `_dereference` — and with it the notification callback —
runs when the targets listed in `dead` are collected: CPython fires each
live `weakref.ref`'s callback once when its referent is finalized, and
`_dereference` forwards every firing to the callback. -/
def expiryInvocations (ref : WeakCallRef) (dead : List Nat) : Nat :=
  if ref.hasCallback then (ref.targets.filter (fun t => dead.contains t)).length
  else 0

/-- The registry state in which a bound-method reference has already been
evicted from pattern `p`'s set (the set exists and is empty). -/
def regAfterFirstEviction : RegState :=
  { dict := { sep := '.', allowWildcardKeys := false,
              entries := [((r"p").toList, 0)], cache := [] },
    heap := [[]] }

/-- C9, counterexample.  A bound-method weak reference observes two targets
with the same callback, so when both the instance and the function die the
notification is invoked twice — not "at most once per reference"; and the
second eviction, finding the pattern's set without the reference, raises
KeyError (`set.remove`) instead of being an idempotent no-op, so the
notification path can raise. -/
theorem expiry_twice_and_eviction_keyerror :
    expiryInvocations (mkWeakCallableReference 10 (some 20) true) [10, 20] = 2 ∧
      (unregisterProxy regAfterFirstEviction ((r"p").toList) 5).1
        = some PyErr.keyError := by
  decide

/-- C9, amended.  The expiry notification callback is invoked once per dying
observed target — up to twice for a bound-method reference — and the
registry's eviction removes the reference when the pattern's set contains
it, but raises KeyError (rather than being an idempotent no-op) when the set
no longer contains it; only interpreter teardown of the Registry class or
instance is tolerated by the `if Registry:` / `if self:` guards. -/
theorem expiry_per_target_and_eviction (st : RegState) (p : List Char) (r sid : Nat)
    (fnT instT : Nat) (dead : List Nat)
    (hp : st.dict.entries.lookup p = some sid) :
    (r ∈ heapGet st.heap sid →
        unregisterProxy st p r
          = (none, { st with
              heap := heapSet st.heap sid ((heapGet st.heap sid).erase r) })) ∧
      (r ∉ heapGet st.heap sid →
        unregisterProxy st p r = (some PyErr.keyError, st)) ∧
      expiryInvocations (mkWeakCallableReference fnT (some instT) true) dead ≤ 2 := by
  refine ⟨?_, ?_, ?_⟩
  · intro hr
    unfold unregisterProxy
    rw [hp]
    dsimp only
    rw [if_pos hr]
  · intro hr
    unfold unregisterProxy
    rw [hp]
    dsimp only
    rw [if_neg hr]
  · show (List.filter _ [fnT, instT]).length ≤ 2
    exact le_trans (List.length_filter_le _ _) (by simp)

theorem expiry_per_target_and_eviction_witness :
    ((5 : Nat) ∈ heapGet [[5]] 0 →
        unregisterProxy
          { dict := { sep := '.', allowWildcardKeys := false,
                      entries := [((r"p").toList, 0)], cache := [] },
            heap := [[5]] } ((r"p").toList) 5
          = (none, { dict := { sep := '.', allowWildcardKeys := false,
                               entries := [((r"p").toList, 0)], cache := [] },
                     heap := heapSet [[5]] 0 ((heapGet [[5]] 0).erase 5) })) ∧
      ((5 : Nat) ∉ heapGet [[5]] 0 →
        unregisterProxy
          { dict := { sep := '.', allowWildcardKeys := false,
                      entries := [((r"p").toList, 0)], cache := [] },
            heap := [[5]] } ((r"p").toList) 5
          = (some PyErr.keyError,
             { dict := { sep := '.', allowWildcardKeys := false,
                         entries := [((r"p").toList, 0)], cache := [] },
               heap := [[5]] })) ∧
      expiryInvocations (mkWeakCallableReference 10 (some 20) true) [20] ≤ 2 :=
  expiry_per_target_and_eviction
    { dict := { sep := '.', allowWildcardKeys := false,
                entries := [((r"p").toList, 0)], cache := [] },
      heap := [[5]] }
    ((r"p").toList) 5 0 10 20 [20] (by decide)

end Wireworks
